import Mathlib

/-!
Verification of the hfi1 CPU affinity allocator
(drivers/infiniband/hw/hfi1/affinity.c).

CPU sets (struct cpumask) are modelled as Finset ℕ over logical CPU ids.
The kernel primitives cpumask_first / cpumask_next return nr_cpu_ids when
no bit is found; since a cpumask never holds an id ≥ nr_cpu_ids, that
sentinel is modelled as none : Option ℕ.
-/

/-- Model of cpumask_first: the lowest-numbered CPU in the set, or none
(the nr_cpu_ids sentinel) when the set is empty. -/
def cpumask_first (m : Finset ℕ) : Option ℕ :=
  if h : m.Nonempty then some (m.min' h) else none

/-- Model of cpumask_next: the lowest-numbered CPU strictly greater than
cpu in the set, or none (the nr_cpu_ids sentinel) when there is none. -/
def cpumask_next (cpu : ℕ) (m : Finset ℕ) : Option ℕ :=
  cpumask_first (m.filter (fun x => cpu < x))

/-- Model of struct cpu_mask_set: eligible CPUs, currently-allocated CPUs
and the wraparound generation counter. -/
structure cpu_mask_set where
  mask : Finset ℕ
  used : Finset ℕ
  gen : ℕ

instance : DecidableEq cpu_mask_set := fun a b =>
  decidable_of_iff (a.mask = b.mask ∧ a.used = b.used ∧ a.gen = b.gen)
    (by cases a; cases b; simp)

/-- Model of init_cpu_mask_set (affinity.c:73-78): both masks cleared,
generation zero. -/
def init_cpu_mask_set : cpu_mask_set := ⟨∅, ∅, 0⟩

/-- Model of the process-pool initialization in node_affinity_init
(affinity.c:120-123): used cleared, mask = online CPUs, gen = 0. -/
def node_affinity_init_proc (onlineMask : Finset ℕ) : cpu_mask_set :=
  ⟨onlineMask, ∅, 0⟩

/-- Model of the pool-allocation core of get_irq_affinity
(affinity.c:460-472): if mask == used, bump gen and clear used; then take
the first CPU of mask minus used and mark it used.  The none branch
(empty diff) corresponds to the sentinel cpumask_first result,
unreachable for a pool with used contained in a nonempty mask. -/
def get_irq_affinity_alloc (set : cpu_mask_set) : Option ℕ × cpu_mask_set :=
  let set1 := if set.mask = set.used then
      { set with gen := set.gen + 1, used := (∅ : Finset ℕ) }
    else set
  let diff := set1.mask \ set1.used
  match cpumask_first diff with
  | some cpu => (some cpu, { set1 with used := insert cpu set1.used })
  | none => (none, set1)

/-- Model of the pool-release core of hfi1_put_irq_affinity
(affinity.c:528-534): remove the vector's mask (a singleton in practice)
from used; if used becomes empty while gen > 0, decrement gen and refill
used with the whole mask. -/
def hfi1_put_irq_affinity_release (set : cpu_mask_set) (msixMask : Finset ℕ) :
    cpu_mask_set :=
  let used := set.used \ msixMask
  if used = ∅ ∧ set.gen ≠ 0 then
    { mask := set.mask, used := set.mask, gen := set.gen - 1 }
  else
    { set with used := used }

/-- Model of hfi1_put_proc_affinity (affinity.c:762-778): ignore negative
cpu, clear the cpu from used, and apply the same empty-and-gen refill as
the IRQ release path. -/
def hfi1_put_proc_affinity (set : cpu_mask_set) (cpu : Int) : cpu_mask_set :=
  if cpu < 0 then set
  else
    let used := set.used.erase cpu.toNat
    if used = ∅ ∧ set.gen ≠ 0 then
      { mask := set.mask, used := set.mask, gen := set.gen - 1 }
    else
      { set with used := used }

/-- Iterated pool allocation: n consecutive get_irq_affinity allocations
with no intervening release, collecting the returned CPUs in order. -/
def alloc_iter : ℕ → cpu_mask_set → List (Option ℕ) × cpu_mask_set
  | 0, s => ([], s)
  | n + 1, s =>
    let r := get_irq_affinity_alloc s
    let rest := alloc_iter n r.2
    (r.1 :: rest.1, rest.2)

/-- Follows the spec's words (section 4.2 allocate): if used == mask,
increment generation and clear used; candidates = mask minus used; pick
the lowest-numbered CPU in candidates, mark it used, return it; fails
only if mask is empty. -/
def allocate_spec (set : cpu_mask_set) : Option ℕ × cpu_mask_set :=
  if set.mask = ∅ then (none, set)
  else
    let set1 := if set.used = set.mask then
        { set with gen := set.gen + 1, used := (∅ : Finset ℕ) }
      else set
    let candidates := set1.mask \ set1.used
    if h : candidates.Nonempty then
      let c := candidates.min' h
      (some c, { set1 with used := insert c set1.used })
    else (none, set1)

/-- Model of struct hfi1_affinity_node: the per-NUMA-node entry with the
default-interrupt pool, the receive-interrupt pool and the single-CPU
general-interrupt mask. -/
structure hfi1_affinity_node where
  def_intr : cpu_mask_set
  rcv_intr : cpu_mask_set
  general_intr_mask : Finset ℕ

instance : DecidableEq hfi1_affinity_node := fun a b =>
  decidable_of_iff
    (a.def_intr = b.def_intr ∧ a.rcv_intr = b.rcv_intr ∧
      a.general_intr_mask = b.general_intr_mask)
    (by cases a; cases b; simp)

/-- Model of the receive-queue fill loop of hfi1_dev_affinity_init
(affinity.c:283-295): for each step, move curr from the default mask to
the receive mask and advance to the next CPU of the default mask,
stopping early when CPUs run out (curr at nr_cpu_ids, i.e. none). -/
def rcv_fill : ℕ → ℕ → Finset ℕ → Finset ℕ → Finset ℕ × Finset ℕ
  | 0, _, defMask, rcvMask => (defMask, rcvMask)
  | n + 1, curr, defMask, rcvMask =>
    let defMask1 := defMask.erase curr
    let rcvMask1 := insert curr rcvMask
    match cpumask_next curr defMask1 with
    | none => (defMask1, rcvMask1)
    | some c => rcv_fill n c defMask1 rcvMask1

/-- Model of the new-entry initialization of hfi1_dev_affinity_init
(affinity.c:253-305): candidate = real_cpu_mask intersected with the
node-local mask; a single-CPU candidate serves every role; otherwise the
first candidate CPU becomes the general mask, (n_krcv_queues - 1) times
per-node-device-count CPUs move to the receive mask, and an emptied
default mask is refilled from the general mask.  The outer none branch
is unreachable for a nonempty candidate mask. -/
def hfi1_dev_affinity_init_entry (realCpuMask localMask : Finset ℕ)
    (nKrcvQueues perNodeCntr : ℕ) : hfi1_affinity_node :=
  let defMask := realCpuMask ∩ localMask
  let possible := defMask.card
  match cpumask_first defMask with
  | none => ⟨⟨defMask, ∅, 0⟩, ⟨∅, ∅, 0⟩, ∅⟩
  | some curr =>
    if possible = 1 then
      ⟨⟨defMask, ∅, 0⟩, ⟨{curr}, ∅, 0⟩, {curr}⟩
    else
      let defMask1 := defMask.erase curr
      let general := ({curr} : Finset ℕ)
      let filled :=
        match cpumask_next curr defMask1 with
        | none => (defMask1, (∅ : Finset ℕ))
        | some c => rcv_fill ((nKrcvQueues - 1) * perNodeCntr) c defMask1 ∅
      let defMask2 := if filled.1.card = 0 then general else filled.1
      ⟨⟨defMask2, ∅, 0⟩, ⟨filled.2, ∅, 0⟩, general⟩

/-- Model of enum irq_type (SDMA, RCVCTXT, GENERAL, OTHER). -/
inductive irq_type where
  | sdma
  | rcvctxt
  | general
  | other
deriving DecidableEq

/-- Snapshot of one hfi1_msix_entry of the device, as inspected by the
reassignment scan of hfi1_update_sdma_affinity: its IRQ type and its
effective cpumask. -/
structure msix_snapshot where
  mtype : irq_type
  mask : Finset ℕ

instance : DecidableEq msix_snapshot := fun a b =>
  decidable_of_iff (a.mtype = b.mtype ∧ a.mask = b.mask)
    (by cases a; cases b; simp)

/-- The state read and written by hfi1_update_sdma_affinity: the SDMA
engine's recorded cpu (sde->cpu), the vector's effective cpumask
(msix->mask), the OS affinity hint registered for the vector, and the
node entry's default-interrupt pool. -/
structure sdma_update_state where
  sde_cpu : ℕ
  msix_mask : Finset ℕ
  affinity_hint : Option (Finset ℕ)
  def_intr : cpu_mask_set

instance : DecidableEq sdma_update_state := fun a b =>
  decidable_of_iff
    (a.sde_cpu = b.sde_cpu ∧ a.msix_mask = b.msix_mask ∧
      a.affinity_hint = b.affinity_hint ∧ a.def_intr = b.def_intr)
    (by cases a; cases b; simp)

/-- Model of hfi1_update_sdma_affinity (affinity.c:318-364): reject when
cpu > num_online_cpus() or cpu equals the current assignment; do nothing
when the node has no affinity entry; otherwise record the new cpu, set
the vector mask and hint to the singleton of cpu, add cpu to the default
pool's mask and used sets, and clear the old cpu from them only if no
other SDMA vector of the device still has the old cpu in its mask.
others lists the device's msix entries other than this vector (the
other_msix == msix pointer test in the scan). -/
def hfi1_update_sdma_affinity (numOnlineCpus : ℕ) (entryExists : Bool)
    (others : List msix_snapshot) (st : sdma_update_state) (cpu : ℕ) :
    sdma_update_state :=
  if cpu > numOnlineCpus ∨ cpu = st.sde_cpu then st
  else if entryExists then
    let old_cpu := st.sde_cpu
    let set1 := { st.def_intr with
      mask := insert cpu st.def_intr.mask,
      used := insert cpu st.def_intr.used }
    let st1 : sdma_update_state :=
      { sde_cpu := cpu, msix_mask := {cpu}, affinity_hint := some {cpu},
        def_intr := set1 }
    if ∃ other ∈ others, other.mtype = irq_type.sdma ∧ old_cpu ∈ other.mask then
      st1
    else
      { st1 with def_intr := { set1 with
          mask := set1.mask.erase old_cpu,
          used := set1.used.erase old_cpu } }
  else st

/-- The curr_cpu = cpumask_next(curr_cpu, mask) walking loop of
find_hw_thread_mask (affinity.c:555-558): advance n times through the
(unmodified) mask; a sentinel curr stays sentinel. -/
def cpumask_walk : ℕ → Option ℕ → Finset ℕ → Option ℕ
  | 0, curr, _ => curr
  | n + 1, curr, m =>
    match curr with
    | some c => cpumask_walk n (cpumask_next c m) m
    | none => cpumask_walk n none m

/-- The clearing loop of find_hw_thread_mask (affinity.c:560-563): n
times, clear curr from the mask and advance to the next CPU of the
modified mask; clearing the sentinel is a no-op. -/
def cpumask_clear_walk : ℕ → Option ℕ → Finset ℕ → Finset ℕ
  | 0, _, m => m
  | n + 1, curr, m =>
    match curr with
    | some c =>
      let m1 := m.erase c
      cpumask_clear_walk n (cpumask_next c m1) m1
    | none => cpumask_clear_walk n none m

/-- Model of cpumask_shift_left: every CPU id moves up by n; ids at or
above nr_cpu_ids fall off. -/
def cpumask_shift_left (m : Finset ℕ) (n nrCpuIds : ℕ) : Finset ℕ :=
  (m.image (· + n)).filter (· < nrCpuIds)

/-- Model of find_hw_thread_mask (affinity.c:542-571): copy the process
pool mask; if core siblings exist, keep only its first
num_cores_per_socket times num_online_nodes CPUs and shift the result up
by that count times the hardware-thread index. -/
def find_hw_thread_mask (hwThreadNo : ℕ) (procPoolMask : Finset ℕ)
    (numCoreSiblings numOnlineCpus numOnlineNodes nrCpuIds : ℕ) : Finset ℕ :=
  let numCoresPerSocket := numOnlineCpus / numCoreSiblings / numOnlineNodes
  let hw := procPoolMask
  if 0 < numCoreSiblings then
    let possible := hw.card
    let curr := cpumask_walk (numCoresPerSocket * numOnlineNodes)
      (cpumask_first hw) hw
    let hw1 := cpumask_clear_walk (possible - numCoresPerSocket * numOnlineNodes)
      curr hw
    cpumask_shift_left hw1 (numCoresPerSocket * numOnlineNodes * hwThreadNo)
      nrCpuIds
  else hw

/-- The hardware-thread search loop of hfi1_get_proc_affinity
(affinity.c:672-688): try hardware-thread indices in order, stopping at
the first whose mask still has CPUs outside used; if none has, the last
computed mask stands. -/
def hw_search (procPoolMask used : Finset ℕ)
    (numCoreSiblings numOnlineCpus numOnlineNodes nrCpuIds : ℕ) :
    ℕ → ℕ → Finset ℕ → Finset ℕ
  | _, 0, acc => acc
  | i, r + 1, _ =>
    let m := find_hw_thread_mask i procPoolMask numCoreSiblings numOnlineCpus
      numOnlineNodes nrCpuIds
    if (m \ used).Nonempty then m
    else hw_search procPoolMask used numCoreSiblings numOnlineCpus
      numOnlineNodes nrCpuIds (i + 1) r m

/-- The environment read by hfi1_get_proc_affinity: registry topology
counters, the node's affinity entry (if any), the node's CPU mask, and
the calling process's allowed-CPU mask (tsk_cpus_allowed(current)). -/
structure ProcEnv where
  numCoreSiblings : ℕ
  numOnlineNodes : ℕ
  numOnlineCpus : ℕ
  nrCpuIds : ℕ
  entry : Option hfi1_affinity_node
  nodeMask : Finset ℕ
  procMask : Finset ℕ

/-- The interrupt-occupied mask built by hfi1_get_proc_affinity
(affinity.c:653-662): for each of the node entry's two pools take its
mask if its generation is nonzero and its used set otherwise, united with
the general mask; empty when the node has no entry. -/
def proc_intrs_mask (entry : Option hfi1_affinity_node) : Finset ℕ :=
  match entry with
  | some e =>
    ((if e.def_intr.gen ≠ 0 then e.def_intr.mask else e.def_intr.used) ∪
      (if e.rcv_intr.gen ≠ 0 then e.rcv_intr.mask else e.rcv_intr.used)) ∪
      e.general_intr_mask
  | none => ∅

/-- The hardware-thread restriction of hfi1_get_proc_affinity
(affinity.c:666-688): the pool mask itself when there are no core
siblings, otherwise the result of the search loop. -/
def proc_hw_thread_mask (env : ProcEnv) (set : cpu_mask_set) : Finset ℕ :=
  if 0 < env.numCoreSiblings then
    hw_search set.mask set.used env.numCoreSiblings env.numOnlineCpus
      env.numOnlineNodes env.nrCpuIds 0 env.numCoreSiblings set.mask
  else set.mask

/-- The candidate-mask computation of hfi1_get_proc_affinity
(affinity.c:666-738), after the pool wraparound: restrict to the selected
hardware-thread mask, prefer node-local CPUs not running interrupt
handlers, then node-local CPUs at all, then the same two-step preference
over all other nodes. -/
def proc_available_mask (env : ProcEnv) (set : cpu_mask_set) : Finset ℕ :=
  let intrsMask := proc_intrs_mask env.entry
  let hwThreadMask := proc_hw_thread_mask env set
  let availableMask := (hwThreadMask ∩ env.nodeMask) \ set.used
  let diff := availableMask \ intrsMask
  let availableMask1 := if diff.Nonempty then diff else availableMask
  if availableMask1 = ∅ then
    let am := (hwThreadMask \ set.used) \ env.nodeMask
    let diff2 := am \ intrsMask
    if diff2.Nonempty then diff2 else am
  else availableMask1

/-- The pool-exhaustion wraparound at the head of the placement search
(affinity.c:644-647): if mask = used, bump gen and clear used. -/
def proc_pool_wrap (set : cpu_mask_set) : cpu_mask_set :=
  if set.mask = set.used then
    { set with gen := set.gen + 1, used := (∅ : Finset ℕ) }
  else set

/-- Model of hfi1_get_proc_affinity (affinity.c:573-760): honor a
single-CPU pinned process (marking it used); give no recommendation when
the allowed set is narrower than the pool mask; otherwise wraparound the
pool if exhausted, compute the candidate mask, and return its first CPU
(marking it used), or -1 when it is empty. -/
def hfi1_get_proc_affinity (env : ProcEnv) (set : cpu_mask_set) :
    Int × cpu_mask_set :=
  if env.procMask.card = 1 then
    match cpumask_first env.procMask with
    | some cpu => ((cpu : Int), { set with used := insert cpu set.used })
    | none => (-1, set)
  else if env.procMask.card < set.mask.card then
    (-1, set)
  else
    match cpumask_first (proc_available_mask env (proc_pool_wrap set)) with
    | none => (-1, proc_pool_wrap set)
    | some cpu =>
      ((cpu : Int),
       { proc_pool_wrap set with
          used := insert cpu (proc_pool_wrap set).used })

/-! Basic facts about the cpumask primitives. -/

theorem cpumask_first_empty : cpumask_first ∅ = none := rfl

theorem cpumask_first_of_nonempty {m : Finset ℕ} (h : m.Nonempty) :
    cpumask_first m = some (m.min' h) := dif_pos h

theorem cpumask_first_eq_some {m : Finset ℕ} {c : ℕ}
    (h : cpumask_first m = some c) : c ∈ m ∧ ∀ x ∈ m, c ≤ x := by
  unfold cpumask_first at h
  split at h
  · rename_i hne
    obtain rfl : m.min' hne = c := by simpa using h
    exact ⟨m.min'_mem hne, fun x hx => m.min'_le x hx⟩
  · simp at h

theorem cpumask_first_singleton (a : ℕ) : cpumask_first {a} = some a := by
  rw [cpumask_first_of_nonempty (Finset.singleton_nonempty a)]
  simp

/-- C2: for every pool with a nonempty mask (and the pool invariant
used contained in mask), the allocation core of get_irq_affinity behaves
exactly as the spec's allocate: wraparound reset when used = mask, then
the lowest-numbered CPU of mask minus used is chosen, marked used and
returned. -/
theorem get_irq_alloc_refines_spec (s : cpu_mask_set)
    (hsub : s.used ⊆ s.mask) (hne : s.mask.Nonempty) :
    get_irq_affinity_alloc s = allocate_spec s := by
  have hne' : s.mask ≠ ∅ := Finset.nonempty_iff_ne_empty.mp hne
  simp only [get_irq_affinity_alloc, allocate_spec, if_neg hne']
  by_cases heq : s.mask = s.used
  · simp only [if_pos heq, if_pos heq.symm]
    have hd : (s.mask \ (∅ : Finset ℕ)).Nonempty := by simpa using hne
    rw [dif_pos hd, cpumask_first_of_nonempty hd]
  · simp only [if_neg heq, if_neg (Ne.symm heq)]
    have hd : (s.mask \ s.used).Nonempty := by
      rw [Finset.sdiff_nonempty]
      intro hsub2
      exact heq (Finset.Subset.antisymm hsub2 hsub)
    rw [dif_pos hd, cpumask_first_of_nonempty hd]

/-- C2 witness: the refinement instantiated at a concrete pool. -/
theorem get_irq_alloc_refines_spec_witness :
    get_irq_affinity_alloc ⟨{1, 3}, {1}, 0⟩ = allocate_spec ⟨{1, 3}, {1}, 0⟩ :=
  get_irq_alloc_refines_spec ⟨{1, 3}, {1}, 0⟩ (by decide) (by decide)

/-- Characterization of the allocation core in the exhausted
(wraparound) case. -/
theorem get_irq_alloc_wrap (m u : Finset ℕ) (g : ℕ) (heq : m = u)
    (hd' : (m \ (∅ : Finset ℕ)).Nonempty) :
    get_irq_affinity_alloc ⟨m, u, g⟩ =
      (some ((m \ (∅ : Finset ℕ)).min' hd'),
       ⟨m, {(m \ (∅ : Finset ℕ)).min' hd'}, g + 1⟩) := by
  unfold get_irq_affinity_alloc
  simp only [if_pos heq]
  rw [cpumask_first_of_nonempty hd']
  rfl

/-- Characterization of the allocation core when the pool is not
exhausted. -/
theorem get_irq_alloc_no_wrap (m u : Finset ℕ) (g : ℕ) (hneq : m ≠ u)
    (hd : (m \ u).Nonempty) :
    get_irq_affinity_alloc ⟨m, u, g⟩ =
      (some ((m \ u).min' hd), ⟨m, insert ((m \ u).min' hd) u, g⟩) := by
  unfold get_irq_affinity_alloc
  simp only [if_neg hneq]
  rw [cpumask_first_of_nonempty hd]

/-- Characterization of the release core when the removal empties used
while gen > 0: gen is decremented and used refilled to mask. -/
theorem put_irq_release_refill (m u msk : Finset ℕ) (g : ℕ)
    (h1 : u \ msk = ∅) (h2 : g ≠ 0) :
    hfi1_put_irq_affinity_release ⟨m, u, g⟩ msk = ⟨m, m, g - 1⟩ := by
  simp only [hfi1_put_irq_affinity_release]
  rw [if_pos ⟨h1, h2⟩]

/-- Characterization of the release core when no refill triggers. -/
theorem put_irq_release_no_refill (m u msk : Finset ℕ) (g : ℕ)
    (h : ¬(u \ msk = ∅ ∧ g ≠ 0)) :
    hfi1_put_irq_affinity_release ⟨m, u, g⟩ msk = ⟨m, u \ msk, g⟩ := by
  simp only [hfi1_put_irq_affinity_release]
  rw [if_neg h]

/-- C3 counterexample: from the pool state (mask {0}, used empty, gen 1),
allocate returns CPU 0, but releasing CPU 0 right away yields
(mask {0}, used {0}, gen 0), not the original triple: the empty-and-gen
refill on release breaks the round trip. -/
theorem alloc_release_roundtrip_cex :
    get_irq_affinity_alloc ⟨{0}, ∅, 1⟩ = (some 0, ⟨{0}, {0}, 1⟩) ∧
    hfi1_put_irq_affinity_release ⟨{0}, {0}, 1⟩ {0} ≠ ⟨{0}, ∅, 1⟩ := by decide

/-- C3 amended: allocate-then-release of the same CPU with no
intervening operation restores (mask, used, generation) exactly, for
every pool state whose used set is nonempty, or whose generation is 0,
or which is exhausted (used = mask, the wraparound case); the only
excluded states are used empty with generation > 0. -/
theorem alloc_release_roundtrip (s : cpu_mask_set) (c : ℕ) (s' : cpu_mask_set)
    (hsub : s.used ⊆ s.mask) (hne : s.mask.Nonempty)
    (hstate : s.used.Nonempty ∨ s.gen = 0 ∨ s.used = s.mask)
    (halloc : get_irq_affinity_alloc s = (some c, s')) :
    hfi1_put_irq_affinity_release s' {c} = s := by
  obtain ⟨m, u, g⟩ := s
  by_cases heq : m = u
  · -- wraparound case: used = mask
    have hd' : (m \ (∅ : Finset ℕ)).Nonempty := by simpa using hne
    rw [get_irq_alloc_wrap m u g heq hd'] at halloc
    injection halloc with h1 h2
    injection h1 with hc
    subst hc
    subst h2
    rw [put_irq_release_refill _ _ _ _ (by simp) (Nat.succ_ne_zero g)]
    simp [heq]
  · -- no wraparound
    have hd : (m \ u).Nonempty := by
      rw [Finset.sdiff_nonempty]
      intro hsub2
      exact heq (Finset.Subset.antisymm hsub2 hsub)
    rw [get_irq_alloc_no_wrap m u g heq hd] at halloc
    injection halloc with h1 h2
    injection h1 with hc
    subst hc
    subst h2
    have hcU : (m \ u).min' hd ∉ u := (Finset.mem_sdiff.mp (Finset.min'_mem _ hd)).2
    have herase : insert ((m \ u).min' hd) u \ {(m \ u).min' hd} = u := by
      rw [Finset.sdiff_singleton_eq_erase, Finset.erase_insert hcU]
    rw [put_irq_release_no_refill]
    · rw [herase]
    · rw [herase]
      rintro ⟨hemp, hgen⟩
      rcases hstate with h | h | h
      · exact Finset.nonempty_iff_ne_empty.mp h hemp
      · exact hgen h
      · exact heq h.symm

/-- C3 amended witness: round trip at a concrete pool, wraparound
case. -/
theorem alloc_release_roundtrip_witness :
    hfi1_put_irq_affinity_release ⟨{2, 5}, {2}, 4⟩ {2} = ⟨{2, 5}, {2, 5}, 3⟩ :=
  alloc_release_roundtrip ⟨{2, 5}, {2, 5}, 3⟩ 2 ⟨{2, 5}, {2}, 4⟩
    (by decide) (by decide) (Or.inr (Or.inr (by decide))) (by decide)

/-- Filling lemma: from a pool with used contained in mask, running
exactly mask.card - used.card allocations yields pairwise-distinct CPUs
covering mask minus used, ends with used = mask, and never touches the
generation. -/
theorem alloc_iter_fill :
    ∀ (n : ℕ) (M U : Finset ℕ) (g : ℕ), U ⊆ M → U.card + n = M.card →
    ∃ l : List ℕ, alloc_iter n ⟨M, U, g⟩ = (l.map some, ⟨M, M, g⟩) ∧
      l.Nodup ∧ l.length = n ∧ l.toFinset = M \ U := by
  intro n
  induction n with
  | zero =>
    intro M U g hsub hcard
    have hUM : U = M := Finset.eq_of_subset_of_card_le hsub (by omega)
    subst hUM
    exact ⟨[], by simp [alloc_iter], List.nodup_nil, rfl, by simp⟩
  | succ n ih =>
    intro M U g hsub hcard
    have hneq : M ≠ U := by
      intro h
      rw [h] at hcard
      omega
    have hd : (M \ U).Nonempty := by
      rw [Finset.sdiff_nonempty]
      intro hsub2
      exact hneq (Finset.Subset.antisymm hsub2 hsub)
    have hcmem : (M \ U).min' hd ∈ M \ U := Finset.min'_mem _ hd
    have hcM : (M \ U).min' hd ∈ M := (Finset.mem_sdiff.mp hcmem).1
    have hcU : (M \ U).min' hd ∉ U := (Finset.mem_sdiff.mp hcmem).2
    have halloc : get_irq_affinity_alloc ⟨M, U, g⟩ =
        (some ((M \ U).min' hd), ⟨M, insert ((M \ U).min' hd) U, g⟩) := by
      unfold get_irq_affinity_alloc
      simp only [if_neg hneq]
      rw [cpumask_first_of_nonempty hd]
    obtain ⟨l, hl, hnd, hlen, hfin⟩ := ih M (insert ((M \ U).min' hd) U) g
      (Finset.insert_subset hcM hsub)
      (by rw [Finset.card_insert_of_not_mem hcU]; omega)
    refine ⟨(M \ U).min' hd :: l, ?_, ?_, by simp [hlen], ?_⟩
    · show alloc_iter (n + 1) ⟨M, U, g⟩ = _
      unfold alloc_iter
      rw [halloc]
      simp [hl]
    · rw [List.nodup_cons]
      refine ⟨?_, hnd⟩
      intro hcl
      have := hfin ▸ List.mem_toFinset.mpr hcl
      exact (Finset.mem_sdiff.mp this).2 (Finset.mem_insert_self _ _)
    · rw [List.toFinset_cons, hfin, Finset.sdiff_insert]
      exact Finset.insert_erase hcmem

/-- C5: a first attach on a node with candidate mask {2, 4, 6, 8}
(real CPUs local to the node), receive_queue_count = 2 and one device on
the node yields general_mask = {2}, receive mask = {4} and default mask
= {6, 8}. -/
theorem dev_affinity_partition_example (realCpuMask localMask : Finset ℕ)
    (h : realCpuMask ∩ localMask = {2, 4, 6, 8}) :
    hfi1_dev_affinity_init_entry realCpuMask localMask 2 1 =
      ⟨⟨{6, 8}, ∅, 0⟩, ⟨{4}, ∅, 0⟩, {2}⟩ := by
  unfold hfi1_dev_affinity_init_entry
  rw [h]
  decide

/-- C5 witness: the partition example at the concrete candidate mask. -/
theorem dev_affinity_partition_example_witness :
    hfi1_dev_affinity_init_entry {2, 4, 6, 8} {2, 4, 6, 8} 2 1 =
      ⟨⟨{6, 8}, ∅, 0⟩, ⟨{4}, ∅, 0⟩, {2}⟩ :=
  dev_affinity_partition_example {2, 4, 6, 8} {2, 4, 6, 8} (by decide)

/-- C6: a first attach on a node whose candidate mask is a single CPU
yields general_mask = receive mask = default mask = that singleton. -/
theorem dev_affinity_single_core (realCpuMask localMask : Finset ℕ) (c : ℕ)
    (nKrcvQueues perNodeCntr : ℕ) (h : realCpuMask ∩ localMask = {c}) :
    hfi1_dev_affinity_init_entry realCpuMask localMask nKrcvQueues perNodeCntr =
      ⟨⟨{c}, ∅, 0⟩, ⟨{c}, ∅, 0⟩, {c}⟩ := by
  simp only [hfi1_dev_affinity_init_entry, h]
  rw [cpumask_first_singleton]
  simp

/-- C6 witness: the single-core attach at a concrete CPU. -/
theorem dev_affinity_single_core_witness :
    hfi1_dev_affinity_init_entry {5} {5} 3 2 = ⟨⟨{5}, ∅, 0⟩, ⟨{5}, ∅, 0⟩, {5}⟩ :=
  dev_affinity_single_core {5} {5} 5 3 2 (by decide)

/-- C7: after an accepted reassignment of an SDMA vector from CPU A
(the recorded sde cpu, present in the default pool's mask and used sets)
to CPU B, CPU B is in both the mask and used sets of the default pool,
and CPU A has been removed from both if and only if no other SDMA vector
of the device still has CPU A in its mask; in particular, when another
SDMA vector still targets CPU A, CPU A remains in both sets. -/
theorem sdma_reassignment_safety (numOnlineCpus : ℕ)
    (others : List msix_snapshot) (st : sdma_update_state) (cpu : ℕ)
    (hr : ¬cpu > numOnlineCpus) (hc : cpu ≠ st.sde_cpu)
    (hA1 : st.sde_cpu ∈ st.def_intr.mask) (hA2 : st.sde_cpu ∈ st.def_intr.used) :
    cpu ∈ (hfi1_update_sdma_affinity numOnlineCpus true others st cpu).def_intr.mask ∧
    cpu ∈ (hfi1_update_sdma_affinity numOnlineCpus true others st cpu).def_intr.used ∧
    ((st.sde_cpu ∉ (hfi1_update_sdma_affinity numOnlineCpus true others st cpu).def_intr.mask ∧
      st.sde_cpu ∉ (hfi1_update_sdma_affinity numOnlineCpus true others st cpu).def_intr.used) ↔
      ¬∃ other ∈ others, other.mtype = irq_type.sdma ∧ st.sde_cpu ∈ other.mask) ∧
    ((∃ other ∈ others, other.mtype = irq_type.sdma ∧ st.sde_cpu ∈ other.mask) →
      st.sde_cpu ∈ (hfi1_update_sdma_affinity numOnlineCpus true others st cpu).def_intr.mask ∧
      st.sde_cpu ∈ (hfi1_update_sdma_affinity numOnlineCpus true others st cpu).def_intr.used) := by
  unfold hfi1_update_sdma_affinity
  rw [if_neg (by push_neg; exact ⟨Nat.le_of_not_lt hr, hc⟩)]
  · by_cases hscan : ∃ other ∈ others, other.mtype = irq_type.sdma ∧ st.sde_cpu ∈ other.mask
    · rw [if_pos rfl, if_pos hscan]
      refine ⟨Finset.mem_insert_self _ _, Finset.mem_insert_self _ _, ?_, ?_⟩
      · constructor
        · rintro ⟨hnm, -⟩
          exact absurd (Finset.mem_insert_of_mem hA1) hnm
        · intro hn
          exact absurd hscan hn
      · intro _
        exact ⟨Finset.mem_insert_of_mem hA1, Finset.mem_insert_of_mem hA2⟩
    · rw [if_pos rfl, if_neg hscan]
      refine ⟨?_, ?_, ?_, ?_⟩
      · exact Finset.mem_erase_of_ne_of_mem hc (Finset.mem_insert_self _ _)
      · exact Finset.mem_erase_of_ne_of_mem hc (Finset.mem_insert_self _ _)
      · constructor
        · intro _
          exact hscan
        · intro _
          constructor
          · exact Finset.not_mem_erase _ _
          · exact Finset.not_mem_erase _ _
      · intro hx
        exact absurd hx hscan

/-- C7 witness: a concrete accepted reassignment from CPU 0 to CPU 2
while another SDMA vector still targets CPU 0. -/
theorem sdma_reassignment_safety_witness :
    2 ∈ (hfi1_update_sdma_affinity 4 true [⟨irq_type.sdma, {0}⟩]
          ⟨0, {0}, some {0}, ⟨{0, 1}, {0}, 0⟩⟩ 2).def_intr.mask ∧
    2 ∈ (hfi1_update_sdma_affinity 4 true [⟨irq_type.sdma, {0}⟩]
          ⟨0, {0}, some {0}, ⟨{0, 1}, {0}, 0⟩⟩ 2).def_intr.used ∧
    ((0 ∉ (hfi1_update_sdma_affinity 4 true [⟨irq_type.sdma, {0}⟩]
          ⟨0, {0}, some {0}, ⟨{0, 1}, {0}, 0⟩⟩ 2).def_intr.mask ∧
      0 ∉ (hfi1_update_sdma_affinity 4 true [⟨irq_type.sdma, {0}⟩]
          ⟨0, {0}, some {0}, ⟨{0, 1}, {0}, 0⟩⟩ 2).def_intr.used) ↔
      ¬∃ other ∈ [(⟨irq_type.sdma, {0}⟩ : msix_snapshot)],
        other.mtype = irq_type.sdma ∧ 0 ∈ other.mask) ∧
    ((∃ other ∈ [(⟨irq_type.sdma, {0}⟩ : msix_snapshot)],
        other.mtype = irq_type.sdma ∧ 0 ∈ other.mask) →
      0 ∈ (hfi1_update_sdma_affinity 4 true [⟨irq_type.sdma, {0}⟩]
          ⟨0, {0}, some {0}, ⟨{0, 1}, {0}, 0⟩⟩ 2).def_intr.mask ∧
      0 ∈ (hfi1_update_sdma_affinity 4 true [⟨irq_type.sdma, {0}⟩]
          ⟨0, {0}, some {0}, ⟨{0, 1}, {0}, 0⟩⟩ 2).def_intr.used) :=
  sdma_reassignment_safety 4 [⟨irq_type.sdma, {0}⟩]
    ⟨0, {0}, some {0}, ⟨{0, 1}, {0}, 0⟩⟩ 2
    (by decide) (by decide) (by decide) (by decide)

/-- C8 counterexample: with online CPUs {0, 1, 2, 3} (so
num_online_cpus() = 4), a reassignment request for CPU 4 - not a valid
online CPU id - passes the cpu > num_online_cpus() check and is not
rejected: the state changes. -/
theorem sdma_reassignment_reject_cex :
    4 ∉ ({0, 1, 2, 3} : Finset ℕ) ∧
    ({0, 1, 2, 3} : Finset ℕ).card = 4 ∧
    hfi1_update_sdma_affinity 4 true []
        ⟨0, {0}, some {0}, ⟨{0, 1}, {0}, 0⟩⟩ 4 ≠
      ⟨0, {0}, some {0}, ⟨{0, 1}, {0}, 0⟩⟩ := by decide

/-- C8 amended: every reassignment request whose target CPU id is
strictly greater than the online-CPU count, or equal to the vector's
currently assigned CPU, is rejected: the recorded CPU, the vector's
effective mask, the OS hint and the default pool are all unchanged. -/
theorem sdma_reassignment_reject (numOnlineCpus : ℕ) (entryExists : Bool)
    (others : List msix_snapshot) (st : sdma_update_state) (cpu : ℕ)
    (h : cpu > numOnlineCpus ∨ cpu = st.sde_cpu) :
    hfi1_update_sdma_affinity numOnlineCpus entryExists others st cpu = st := by
  unfold hfi1_update_sdma_affinity
  rw [if_pos h]

/-- C8 amended witness: a rejected request at a concrete state. -/
theorem sdma_reassignment_reject_witness :
    hfi1_update_sdma_affinity 4 true [] ⟨0, {0}, some {0}, ⟨{0, 1}, {0}, 0⟩⟩ 7 =
      ⟨0, {0}, some {0}, ⟨{0, 1}, {0}, 0⟩⟩ :=
  sdma_reassignment_reject 4 true [] ⟨0, {0}, some {0}, ⟨{0, 1}, {0}, 0⟩⟩ 7
    (Or.inl (by decide))

/-- C10: when the device's NUMA node has no affinity entry in the
registry, the reassignment callback is a complete no-op: the recorded
CPU, the vector mask, the OS hint and the default pool are unchanged. -/
theorem sdma_reassignment_no_entry_noop (numOnlineCpus : ℕ)
    (others : List msix_snapshot) (st : sdma_update_state) (cpu : ℕ) :
    hfi1_update_sdma_affinity numOnlineCpus false others st cpu = st := by
  unfold hfi1_update_sdma_affinity
  split
  · rfl
  · rfl

/-- C9: with a process pool of mask {0,...,7}, empty used set,
generation 0, no hyperthreading (sibling-group size 1), no affinity
entry for node N, node N's CPUs = {0, 1, 2, 3}, 8 online CPUs on 2
online nodes, and the process's allowed set equal to the full pool mask,
the first advise_process_cpu call returns CPU 0 and marks it used, and a
second identical call returns CPU 1. -/
theorem proc_affinity_determinism :
    hfi1_get_proc_affinity ⟨1, 2, 8, 8, none, {0, 1, 2, 3}, Finset.range 8⟩
        ⟨Finset.range 8, ∅, 0⟩ =
      (0, ⟨Finset.range 8, {0}, 0⟩) ∧
    hfi1_get_proc_affinity ⟨1, 2, 8, 8, none, {0, 1, 2, 3}, Finset.range 8⟩
        ⟨Finset.range 8, {0}, 0⟩ =
      (1, ⟨Finset.range 8, {0, 1}, 0⟩) := by decide

/-- C4: from a pool with mask of size k and empty used set, k
consecutive allocations return k pairwise-distinct CPUs and leave the
generation unchanged, and the (k+1)-th allocation increments the
generation by exactly 1. -/
theorem exhaustion_wraparound (M : Finset ℕ) (g : ℕ) :
    ∃ l : List ℕ,
      (alloc_iter M.card ⟨M, ∅, g⟩).1 = l.map some ∧
      l.Nodup ∧ l.length = M.card ∧
      (alloc_iter M.card ⟨M, ∅, g⟩).2.gen = g ∧
      (get_irq_affinity_alloc (alloc_iter M.card ⟨M, ∅, g⟩).2).2.gen = g + 1 := by
  obtain ⟨l, hl, hnd, hlen, -⟩ :=
    alloc_iter_fill M.card M ∅ g (Finset.empty_subset M) (by simp)
  refine ⟨l, by rw [hl], hnd, hlen, by rw [hl], ?_⟩
  rw [hl]
  rcases M.eq_empty_or_nonempty with hM | hM
  · subst hM
    simp [get_irq_affinity_alloc, cpumask_first_empty]
  · rw [get_irq_alloc_wrap M M g rfl (by simpa using hM)]

/-! Lemmas about the cpumask walking loops, needed for the invariant on
the process-placement path. -/

theorem cpumask_first_Ico (a b : ℕ) :
    cpumask_first (Finset.Ico a b) = if a < b then some a else none := by
  by_cases h : a < b
  · rw [if_pos h,
      cpumask_first_of_nonempty ((Finset.nonempty_Ico).mpr h)]
    congr 1
    apply le_antisymm
    · exact Finset.min'_le _ a (Finset.mem_Ico.mpr ⟨le_refl a, h⟩)
    · exact (Finset.mem_Ico.mp
        (Finset.min'_mem _ ((Finset.nonempty_Ico).mpr h))).1
  · rw [if_neg h, Finset.Ico_eq_empty h, cpumask_first_empty]

theorem cpumask_first_range_pos (N : ℕ) (h : 0 < N) :
    cpumask_first (Finset.range N) = some 0 := by
  rw [Finset.range_eq_Ico, cpumask_first_Ico, if_pos h]

theorem cpumask_next_range (c N : ℕ) :
    cpumask_next c (Finset.range N) = if c + 1 < N then some (c + 1) else none := by
  unfold cpumask_next
  have hf : (Finset.range N).filter (fun x => c < x) = Finset.Ico (c + 1) N := by
    ext x
    simp only [Finset.mem_filter, Finset.mem_range, Finset.mem_Ico]
    omega
  rw [hf, cpumask_first_Ico]

theorem cpumask_walk_none (n : ℕ) (m : Finset ℕ) :
    cpumask_walk n none m = none := by
  induction n with
  | zero => rfl
  | succ n ih => exact ih

theorem cpumask_walk_range (N : ℕ) :
    ∀ (k j : ℕ), j < N →
      cpumask_walk k (some j) (Finset.range N) =
        if j + k < N then some (j + k) else none := by
  intro k
  induction k with
  | zero =>
    intro j hj
    simp [cpumask_walk, hj]
  | succ k ih =>
    intro j hj
    have hstep : cpumask_walk (k + 1) (some j) (Finset.range N) =
        cpumask_walk k (cpumask_next j (Finset.range N)) (Finset.range N) := rfl
    rw [hstep, cpumask_next_range]
    by_cases h : j + 1 < N
    · rw [if_pos h, ih (j + 1) h]
      have harith : j + 1 + k = j + (k + 1) := by omega
      rw [harith]
    · rw [if_neg h, cpumask_walk_none, if_neg (by omega)]

theorem cpumask_clear_walk_none (n : ℕ) (m : Finset ℕ) :
    cpumask_clear_walk n none m = m := by
  induction n with
  | zero => rfl
  | succ n ih => exact ih

theorem cpumask_clear_walk_split :
    ∀ (s k c N : ℕ), k ≤ c →
      cpumask_clear_walk s (some c) (Finset.range k ∪ Finset.Ico c N) =
        Finset.range k ∪ Finset.Ico (c + s) N := by
  intro s
  induction s with
  | zero =>
    intro k c N _
    simp [cpumask_clear_walk]
  | succ s ih =>
    intro k c N hk
    have hstep : cpumask_clear_walk (s + 1) (some c)
          (Finset.range k ∪ Finset.Ico c N) =
        cpumask_clear_walk s
          (cpumask_next c ((Finset.range k ∪ Finset.Ico c N).erase c))
          ((Finset.range k ∪ Finset.Ico c N).erase c) := rfl
    have herase : (Finset.range k ∪ Finset.Ico c N).erase c =
        Finset.range k ∪ Finset.Ico (c + 1) N := by
      ext x
      simp only [Finset.mem_erase, Finset.mem_union, Finset.mem_range,
        Finset.mem_Ico]
      omega
    have hnext : cpumask_next c (Finset.range k ∪ Finset.Ico (c + 1) N) =
        if c + 1 < N then some (c + 1) else none := by
      unfold cpumask_next
      have hf : (Finset.range k ∪ Finset.Ico (c + 1) N).filter
            (fun x => c < x) = Finset.Ico (c + 1) N := by
        ext x
        simp only [Finset.mem_filter, Finset.mem_union, Finset.mem_range,
          Finset.mem_Ico]
        omega
      rw [hf, cpumask_first_Ico]
    rw [hstep, herase, hnext]
    by_cases h : c + 1 < N
    · rw [if_pos h, ih k (c + 1) N (by omega)]
      have harith : c + 1 + s = c + (s + 1) := by omega
      rw [harith]
    · rw [if_neg h, cpumask_clear_walk_none,
        Finset.Ico_eq_empty (by omega : ¬c + 1 < N),
        Finset.Ico_eq_empty (by omega : ¬c + (s + 1) < N)]

theorem cpumask_shift_left_subset_range (m : Finset ℕ) (a nr N : ℕ)
    (h : ∀ x ∈ m, x + a < N) :
    cpumask_shift_left m a nr ⊆ Finset.range N := by
  intro y hy
  unfold cpumask_shift_left at hy
  obtain ⟨hy1, -⟩ := Finset.mem_filter.mp hy
  obtain ⟨x, hx, rfl⟩ := Finset.mem_image.mp hy1
  exact Finset.mem_range.mpr (h x hx)

theorem range_union_Ico (k N : ℕ) (h : k ≤ N) :
    Finset.range k ∪ Finset.Ico k N = Finset.range N := by
  ext x
  simp only [Finset.mem_union, Finset.mem_range, Finset.mem_Ico]
  omega

/-- On a process-pool mask of the contiguous form range N with
num_online_cpus = N, find_hw_thread_mask stays within the mask for every
hardware-thread index below the sibling count. -/
theorem find_hw_thread_mask_subset (i N sib nodes nr : ℕ) (hi : i < sib) :
    find_hw_thread_mask i (Finset.range N) sib N nodes nr ⊆ Finset.range N := by
  have hsib : 0 < sib := by omega
  simp only [find_hw_thread_mask, if_pos hsib, Finset.card_range]
  have hksib : N / sib / nodes * nodes * sib ≤ N := by
    rw [Nat.div_div_eq_div_mul]
    have heq : N / (sib * nodes) * nodes * sib = N / (sib * nodes) * (sib * nodes) := by
      ring
    rw [heq]
    exact Nat.div_mul_le_self _ _
  rcases Nat.eq_zero_or_pos N with hN | hN
  · subst hN
    intro y hy
    simp only [Finset.range_zero, cpumask_first_empty, cpumask_walk_none,
      cpumask_clear_walk_none, cpumask_shift_left] at hy
    simp at hy
  · rw [cpumask_first_range_pos N hN, cpumask_walk_range N _ 0 hN]
    by_cases hkN : N / sib / nodes * nodes < N
    · rw [if_pos (by omega)]
      have hzero : 0 + N / sib / nodes * nodes = N / sib / nodes * nodes := by omega
      rw [hzero]
      have hsplit : Finset.range N =
          Finset.range (N / sib / nodes * nodes) ∪
            Finset.Ico (N / sib / nodes * nodes) N :=
        (range_union_Ico _ N (by omega)).symm
      have hclear : cpumask_clear_walk (N - N / sib / nodes * nodes)
          (some (N / sib / nodes * nodes)) (Finset.range N) =
          Finset.range (N / sib / nodes * nodes) := by
        conv_lhs => rw [hsplit]
        rw [cpumask_clear_walk_split (N - N / sib / nodes * nodes) _ _ N
          (le_refl _)]
        rw [show N / sib / nodes * nodes + (N - N / sib / nodes * nodes) = N
          from by omega]
        rw [Finset.Ico_self, Finset.union_empty]
      rw [hclear]
      apply cpumask_shift_left_subset_range
      intro x hx
      rw [Finset.mem_range] at hx
      have hmul : N / sib / nodes * nodes * (i + 1) =
          N / sib / nodes * nodes * i + N / sib / nodes * nodes := by ring
      have h2 : N / sib / nodes * nodes * (i + 1) ≤
          N / sib / nodes * nodes * sib :=
        Nat.mul_le_mul_left _ (by omega)
      omega
    · rw [if_neg (by omega), cpumask_clear_walk_none]
      have hi0 : i = 0 := by
        by_contra hne
        have h1 : 1 ≤ i := Nat.one_le_iff_ne_zero.mpr hne
        have h2 : N * sib ≤ N / sib / nodes * nodes * sib :=
          Nat.mul_le_mul_right sib (by omega)
        have h3 : N * sib ≤ N := le_trans h2 hksib
        have h4 : N * 1 ≤ N * sib := Nat.mul_le_mul_left N (by omega)
        have h5 : sib ≤ 1 := by
          by_contra hs
          push_neg at hs
          have h6 : N * sib ≥ N * 2 := Nat.mul_le_mul_left N hs
          omega
        omega
      subst hi0
      apply cpumask_shift_left_subset_range
      intro x hx
      rw [Finset.mem_range] at hx
      omega

theorem hw_search_subset (used : Finset ℕ) (sib nodes nr N : ℕ) :
    ∀ (r i : ℕ) (acc : Finset ℕ), i + r ≤ sib → acc ⊆ Finset.range N →
      hw_search (Finset.range N) used sib N nodes nr i r acc ⊆ Finset.range N := by
  intro r
  induction r with
  | zero =>
    intro i acc _ hacc
    exact hacc
  | succ r ih =>
    intro i acc hir hacc
    simp only [hw_search]
    split
    · exact find_hw_thread_mask_subset i N sib nodes nr (by omega)
    · exact ih (i + 1) _ (by omega)
        (find_hw_thread_mask_subset i N sib nodes nr (by omega))

theorem proc_hw_thread_mask_subset (env : ProcEnv) (set : cpu_mask_set)
    (N : ℕ) (hmask : set.mask = Finset.range N)
    (hcpus : env.numOnlineCpus = N) :
    proc_hw_thread_mask env set ⊆ set.mask := by
  unfold proc_hw_thread_mask
  split
  · rw [hmask, hcpus]
    exact hw_search_subset set.used env.numCoreSiblings env.numOnlineNodes
      env.nrCpuIds N env.numCoreSiblings 0 (Finset.range N) (by omega)
      (Finset.Subset.refl _)
  · exact Finset.Subset.refl _

theorem proc_available_mask_subset (env : ProcEnv) (set : cpu_mask_set)
    (N : ℕ) (hmask : set.mask = Finset.range N)
    (hcpus : env.numOnlineCpus = N) :
    proc_available_mask env set ⊆ set.mask := by
  have hhw : proc_hw_thread_mask env set ⊆ set.mask :=
    proc_hw_thread_mask_subset env set N hmask hcpus
  have hA : (proc_hw_thread_mask env set ∩ env.nodeMask) \ set.used ⊆ set.mask :=
    Finset.Subset.trans (Finset.Subset.trans Finset.sdiff_subset
      Finset.inter_subset_left) hhw
  have hB : ((proc_hw_thread_mask env set ∩ env.nodeMask) \ set.used) \
      proc_intrs_mask env.entry ⊆ set.mask :=
    Finset.Subset.trans Finset.sdiff_subset hA
  have hC : (proc_hw_thread_mask env set \ set.used) \ env.nodeMask ⊆ set.mask :=
    Finset.Subset.trans (Finset.Subset.trans Finset.sdiff_subset
      Finset.sdiff_subset) hhw
  have hD : ((proc_hw_thread_mask env set \ set.used) \ env.nodeMask) \
      proc_intrs_mask env.entry ⊆ set.mask :=
    Finset.Subset.trans Finset.sdiff_subset hC
  simp only [proc_available_mask]
  split_ifs <;>
    first
    | exact hB
    | exact hA
    | exact hD
    | exact hC

theorem proc_pool_wrap_mask (set : cpu_mask_set) :
    (proc_pool_wrap set).mask = set.mask := by
  unfold proc_pool_wrap
  split <;> rfl

theorem proc_pool_wrap_used_subset (set : cpu_mask_set)
    (h : set.used ⊆ set.mask) :
    (proc_pool_wrap set).used ⊆ (proc_pool_wrap set).mask := by
  unfold proc_pool_wrap
  split
  · exact Finset.empty_subset _
  · exact h

/-- C1: used is a subset of mask for every pool at every observable
point: after initialization (init_cpu_mask_set, the process pool of
node_affinity_init, and both pools built by the attach partitioner), and
it is preserved by each completed operation - IRQ allocation (on a pool
satisfying the invariant with nonempty mask, the caller contract), IRQ
release, external SDMA reassignment, the process advisor (on a
contiguously numbered online-CPU pool with the allowed set inside the
pool mask), and process release. -/
theorem used_subset_mask_invariant :
    (init_cpu_mask_set.used ⊆ init_cpu_mask_set.mask) ∧
    (∀ onlineMask : Finset ℕ,
      (node_affinity_init_proc onlineMask).used ⊆
        (node_affinity_init_proc onlineMask).mask) ∧
    (∀ (realCpuMask localMask : Finset ℕ) (q c : ℕ),
      (hfi1_dev_affinity_init_entry realCpuMask localMask q c).def_intr.used ⊆
        (hfi1_dev_affinity_init_entry realCpuMask localMask q c).def_intr.mask ∧
      (hfi1_dev_affinity_init_entry realCpuMask localMask q c).rcv_intr.used ⊆
        (hfi1_dev_affinity_init_entry realCpuMask localMask q c).rcv_intr.mask) ∧
    (∀ s : cpu_mask_set, s.used ⊆ s.mask → s.mask.Nonempty →
      (get_irq_affinity_alloc s).2.used ⊆ (get_irq_affinity_alloc s).2.mask) ∧
    (∀ (s : cpu_mask_set) (msk : Finset ℕ), s.used ⊆ s.mask →
      (hfi1_put_irq_affinity_release s msk).used ⊆
        (hfi1_put_irq_affinity_release s msk).mask) ∧
    (∀ (n : ℕ) (e : Bool) (others : List msix_snapshot)
        (st : sdma_update_state) (cpu : ℕ),
      st.def_intr.used ⊆ st.def_intr.mask →
      (hfi1_update_sdma_affinity n e others st cpu).def_intr.used ⊆
        (hfi1_update_sdma_affinity n e others st cpu).def_intr.mask) ∧
    (∀ (env : ProcEnv) (set : cpu_mask_set) (N : ℕ),
      set.used ⊆ set.mask → set.mask = Finset.range N →
      env.numOnlineCpus = N → env.procMask ⊆ set.mask →
      (hfi1_get_proc_affinity env set).2.used ⊆
        (hfi1_get_proc_affinity env set).2.mask) ∧
    (∀ (s : cpu_mask_set) (cpu : Int), s.used ⊆ s.mask →
      (hfi1_put_proc_affinity s cpu).used ⊆
        (hfi1_put_proc_affinity s cpu).mask) := by
  refine ⟨?_, ?_, ?_, ?_, ?_, ?_, ?_, ?_⟩
  · exact Finset.empty_subset _
  · intro onlineMask
    exact Finset.empty_subset _
  · intro realCpuMask localMask q c
    simp only [hfi1_dev_affinity_init_entry]
    cases hfc : cpumask_first (realCpuMask ∩ localMask) with
    | none => exact ⟨Finset.empty_subset _, Finset.empty_subset _⟩
    | some curr =>
      dsimp only
      by_cases hp : (realCpuMask ∩ localMask).card = 1
      · rw [if_pos hp]
        exact ⟨Finset.empty_subset _, Finset.empty_subset _⟩
      · rw [if_neg hp]
        exact ⟨Finset.empty_subset _, Finset.empty_subset _⟩
  · intro s hsub hne
    obtain ⟨m, u, g⟩ := s
    by_cases heq : m = u
    · have hd' : (m \ (∅ : Finset ℕ)).Nonempty := by simpa using hne
      rw [get_irq_alloc_wrap m u g heq hd']
      have hmem : (m \ (∅ : Finset ℕ)).min' hd' ∈ m := by
        have := Finset.min'_mem _ hd'
        simpa using this
      exact Finset.singleton_subset_iff.mpr hmem
    · have hd : (m \ u).Nonempty := by
        rw [Finset.sdiff_nonempty]
        intro hsub2
        exact heq (Finset.Subset.antisymm hsub2 hsub)
      rw [get_irq_alloc_no_wrap m u g heq hd]
      exact Finset.insert_subset
        ((Finset.mem_sdiff.mp (Finset.min'_mem _ hd)).1) hsub
  · intro s msk hsub
    obtain ⟨m, u, g⟩ := s
    simp only [hfi1_put_irq_affinity_release]
    split
    · exact Finset.Subset.refl _
    · exact Finset.Subset.trans Finset.sdiff_subset hsub
  · intro n e others st cpu hsub
    simp only [hfi1_update_sdma_affinity]
    split
    · exact hsub
    · split
      · split
        · exact Finset.insert_subset_insert _ hsub
        · exact Finset.erase_subset_erase _ (Finset.insert_subset_insert _ hsub)
      · exact hsub
  · intro env set N hsub hmask hcpus hproc
    unfold hfi1_get_proc_affinity
    by_cases h1 : env.procMask.card = 1
    · rw [if_pos h1]
      cases hfc : cpumask_first env.procMask with
      | none => exact hsub
      | some cpu =>
        exact Finset.insert_subset (hproc (cpumask_first_eq_some hfc).1) hsub
    · rw [if_neg h1]
      by_cases h2 : env.procMask.card < set.mask.card
      · rw [if_pos h2]
        exact hsub
      · rw [if_neg h2]
        cases hfc : cpumask_first (proc_available_mask env (proc_pool_wrap set)) with
        | none => exact proc_pool_wrap_used_subset set hsub
        | some cpu =>
          refine Finset.insert_subset ?_ (proc_pool_wrap_used_subset set hsub)
          have hsubavail : proc_available_mask env (proc_pool_wrap set) ⊆
              (proc_pool_wrap set).mask :=
            proc_available_mask_subset env (proc_pool_wrap set) N
              (by rw [proc_pool_wrap_mask, hmask]) hcpus
          exact hsubavail (cpumask_first_eq_some hfc).1
  · intro s cpu hsub
    obtain ⟨m, u, g⟩ := s
    simp only [hfi1_put_proc_affinity]
    split
    · exact hsub
    · split
      · exact Finset.Subset.refl _
      · exact Finset.Subset.trans (Finset.erase_subset _ _) hsub

/-- C1 witness: the invariant preservation instantiated at a concrete
IRQ allocation and a concrete process-advisor call. -/
theorem used_subset_mask_invariant_witness :
    (get_irq_affinity_alloc ⟨{0, 1}, {0}, 0⟩).2.used ⊆
      (get_irq_affinity_alloc ⟨{0, 1}, {0}, 0⟩).2.mask ∧
    (hfi1_get_proc_affinity ⟨1, 1, 4, 4, none, {0, 1}, Finset.range 4⟩
        ⟨Finset.range 4, ∅, 0⟩).2.used ⊆
      (hfi1_get_proc_affinity ⟨1, 1, 4, 4, none, {0, 1}, Finset.range 4⟩
        ⟨Finset.range 4, ∅, 0⟩).2.mask :=
  ⟨used_subset_mask_invariant.2.2.2.1 ⟨{0, 1}, {0}, 0⟩ (by decide) (by decide),
   used_subset_mask_invariant.2.2.2.2.2.2.1
     ⟨1, 1, 4, 4, none, {0, 1}, Finset.range 4⟩ ⟨Finset.range 4, ∅, 0⟩ 4
     (by decide) rfl rfl (by decide)⟩
